import Mathlib

/-
Verification of VideoSplitPro (src/ad.py) against its specification.

Times are modelled as rationals (the Python code works with float seconds
obtained as milliseconds / 1000); ratings are natural numbers (len of the
absorbed peak list).  The segmenter, the selector, the interactive editor
loop, and the unique-filename search are shallowly embedded as pure Lean
functions; the interactive input stream is a list of already-parsed
commands; filesystem existence is a Boolean predicate on names; the video
and audio handles are tracked by an explicit event trace.
-/

namespace VideoSplitPro

/-- A non-silent interval (start, end) in seconds, as produced by
detect_audio_peaks. -/
abbrev Peak := ℚ × ℚ

/-- A clip (start, end, rating), as stored in the clip list. -/
abbrev Clip := ℚ × ℚ × ℕ

/-- State of the segmenter loop in split_video_into_clips:
the emitted cuts (each still carrying its absorbed peak list) and the
running segment current_start, current_end, current_peaks. -/
structure SegState where
  cuts : List (ℚ × ℚ × List Peak)
  cs : ℚ
  ce : ℚ
  cp : List Peak

/-- One iteration of the for-loop over peak_times in
split_video_into_clips (src/ad.py lines 55-65). -/
def segStep (minD maxD : ℚ) (st : SegState) (p : Peak) : SegState :=
  if p.2 - st.cs > maxD then
    { cuts := if st.ce - st.cs ≥ minD then st.cuts ++ [(st.cs, st.ce, st.cp)] else st.cuts
      cs := p.1
      ce := p.2
      cp := [p] }
  else
    { st with ce := p.2, cp := st.cp ++ [p] }

/-- rate_clip (src/ad.py line 27): rating = number of absorbed peaks. -/
def rate_clip (peaks : List Peak) : ℕ := peaks.length

/-- The cut-determination part of split_video_into_clips
(src/ad.py lines 50-72): fold the loop body over the peaks, emit the final
running segment if long enough, then rate each cut. -/
def segment (peaks : List Peak) (minD maxD : ℚ) : List Clip :=
  let st := peaks.foldl (segStep minD maxD) ⟨[], 0, 0, []⟩
  let cuts := if st.ce - st.cs ≥ minD then st.cuts ++ [(st.cs, st.ce, st.cp)] else st.cuts
  cuts.map (fun c => (c.1, c.2.1, rate_clip c.2.2))

/-- Stable insertion of a clip into a rating-descending list: the new
element passes over strictly higher ratings and stops before any equal or
lower rating, so elements inserted earlier (= earlier in the original
list) stay in front among equal ratings.  This models the stable Python
list.sort with key=rating, reverse=True (src/ad.py line 75). -/
def insertByRating (x : Clip) : List Clip → List Clip
  | [] => [x]
  | y :: ys => if x.2.2 < y.2.2 then y :: insertByRating x ys else x :: y :: ys

/-- Stable sort of the clip list by rating, descending. -/
def sortByRatingDesc (l : List Clip) : List Clip := l.foldr insertByRating []

/-- Selection (src/ad.py lines 75-88): sort by rating descending, keep the
first num_clips. -/
def selectTop (l : List Clip) (numClips : ℕ) : List Clip :=
  (sortByRatingDesc l).take numClips

/-- The value returned by split_video_into_clips, as a function of the
detected peaks and the parameters (src/ad.py lines 50-88). -/
def split_video_into_clips (peaks : List Peak) (numClips : ℕ) (minD maxD : ℚ) : List Clip :=
  selectTop (segment peaks minD maxD) numClips

/-- One already-parsed round of user input to the modify_clip loop
(src/ad.py lines 131-199).  Commands carrying numbers are the successful
menu paths; the cancel/invalid constructors are the paths on which the
code prints a message and continues the loop. -/
inductive ModCmd where
  | back
  | addFront (t : ℚ)
  | addBack (t : ℚ)
  | addBoth (f b : ℚ)
  | addCancel
  | addInvalid
  | trimFront (t : ℚ)
  | trimBack (t : ℚ)
  | trimBoth (f b : ℚ)
  | trimMiddle (ms me : ℚ)
  | trimCancel
  | trimInvalid
  | invalid
deriving DecidableEq

/-- The new (start, end) range computed by the Add/Trim branches of
modify_clip (src/ad.py lines 144-177); none for the commands that do not
reach the shared export tail at lines 202-211. -/
def newRange (dur s e : ℚ) : ModCmd → Option (ℚ × ℚ)
  | ModCmd.addFront t => some (max (s - t) 0, e)
  | ModCmd.addBack t => some (s, min (e + t) dur)
  | ModCmd.addBoth f b => some (max (s - f) 0, min (e + b) dur)
  | ModCmd.trimFront t => some (s + t, e)
  | ModCmd.trimBack t => some (s, e - t)
  | ModCmd.trimBoth f b => some (s + f, e - b)
  | _ => none

/-- The while-loop of modify_clip (src/ad.py lines 131-211) as a function
of the command stream.  Result: the list of exported files (each file is
the concatenation of a list of (start, end) sub-ranges of the source
video) and the updated clip list.  Back breaks with no effect; Trim
Middle exports one concatenated file, appends the two halves with
rating 0 and returns; a successful Add/Trim exports the single new range,
appends it with rating 0 and breaks; every other command continues the
loop.  An exhausted command stream is a run that ends blocked at the
prompt with no further effect. -/
def modifyLoop (dur s e : ℚ) (clips : List Clip) : List ModCmd → List (List (ℚ × ℚ)) × List Clip
  | [] => ([], clips)
  | ModCmd.back :: _ => ([], clips)
  | ModCmd.trimMiddle ms me :: _ =>
      ([[(s, s + ms), (s + me, e)]], clips ++ [(s, s + ms, 0), (s + me, e, 0)])
  | cmd :: rest =>
      match newRange dur s e cmd with
      | some (ns, ne) => ([[(ns, ne)]], clips ++ [(ns, ne, 0)])
      | none => modifyLoop dur s e clips rest

/-- The commands on which the modify_clip loop just prints a message and
re-prompts (submenu cancel and invalid choices). -/
def skipsTurn : ModCmd → Bool
  | ModCmd.addCancel => true
  | ModCmd.addInvalid => true
  | ModCmd.trimCancel => true
  | ModCmd.trimInvalid => true
  | ModCmd.invalid => true
  | _ => false

/-- The filename built by get_unique_filename for a given counter value
(src/ad.py line 101). -/
def fileName (folder base ext : String) (k : ℕ) : String :=
  folder ++ "/" ++ base ++ "_" ++ toString k ++ "." ++ ext

/-- get_unique_filename (src/ad.py lines 90-104): starting from counter k
(the code starts at 1), return the first name not reported as existing by
the filesystem predicate taken.  The unbounded while-loop is embedded
with explicit fuel; none models a run that never finds a free name
within the fuel. -/
def get_unique_filename (taken : String → Bool) (folder base ext : String) :
    ℕ → ℕ → Option String
  | 0, _ => none
  | fuel + 1, k =>
      if taken (fileName folder base ext k) then
        get_unique_filename taken folder base ext fuel (k + 1)
      else
        some (fileName folder base ext k)

/-- Events on the video handle and the output files, for the resource
lifetime model. -/
inductive Ev where
  | openVideo
  | closeVideo
  | writeFile
deriving DecidableEq, BEq

/-- Whether a command reaches the shared export tail of modify_clip. -/
def hasRange : ModCmd → Bool
  | ModCmd.addFront _ => true
  | ModCmd.addBack _ => true
  | ModCmd.addBoth _ _ => true
  | ModCmd.trimFront _ => true
  | ModCmd.trimBack _ => true
  | ModCmd.trimBoth _ _ => true
  | _ => false

/-- Handle/file events of the modify_clip loop body: Back breaks, Trim
Middle writes one file and returns, a successful Add/Trim writes one
file and breaks; no branch ever closes the video handle (src/ad.py has
no video.close() in modify_clip). -/
def modifyTraceLoop : List ModCmd → List Ev
  | [] => []
  | ModCmd.back :: _ => []
  | ModCmd.trimMiddle _ _ :: _ => [Ev.writeFile]
  | cmd :: rest => if hasRange cmd then [Ev.writeFile] else modifyTraceLoop rest

/-- Handle/file events of one call to modify_clip: the handle is opened
at entry (src/ad.py line 129), then the loop runs. -/
def modifyTrace (script : List ModCmd) : List Ev :=
  Ev.openVideo :: modifyTraceLoop script

/-- Handle/file events of the export loop of split_video_into_clips
(src/ad.py lines 78-85), given the success of each write: writes happen
in order; a failing write raises, so the loop and the video.close() that
follows it are skipped; only after all writes succeed is the handle
closed. -/
def exportTrace : List Bool → List Ev
  | [] => [Ev.closeVideo]
  | ok :: rest => if ok then Ev.writeFile :: exportTrace rest else []

/-- Handle/file events of one call to split_video_into_clips: open at
entry (src/ad.py line 41), then the export loop and the final close. -/
def splitTrace (oks : List Bool) : List Ev :=
  Ev.openVideo :: exportTrace oks

/-- Properties of an emitted cut that the segmenter maintains: at least
min_duration long; at most max_duration long when at least two peaks were
absorbed; nonempty peak list whenever min_duration is positive. -/
def GoodCut (minD maxD : ℚ) (c : ℚ × ℚ × List Peak) : Prop :=
  minD ≤ c.2.1 - c.1 ∧ (2 ≤ c.2.2.length → c.2.1 - c.1 ≤ maxD) ∧
    (0 < minD → 1 ≤ c.2.2.length)

/-- Invariant of the segmenter loop state. -/
def SegInv (minD maxD : ℚ) (st : SegState) : Prop :=
  (∀ c ∈ st.cuts, GoodCut minD maxD c) ∧
    (2 ≤ st.cp.length → st.ce - st.cs ≤ maxD) ∧
    (st.cp.length = 0 → st.cs = 0 ∧ st.ce = 0)

theorem segInv_init (minD maxD : ℚ) : SegInv minD maxD ⟨[], 0, 0, []⟩ := by
  refine ⟨by simp, by simp, by simp⟩

/-- Closing the running segment preserves GoodCut for the emitted cut. -/
theorem goodCut_close (minD maxD : ℚ) (st : SegState) (h : SegInv minD maxD st)
    (hlen : minD ≤ st.ce - st.cs) : GoodCut minD maxD (st.cs, st.ce, st.cp) := by
  refine ⟨hlen, fun h2 => h.2.1 h2, fun hpos => ?_⟩
  rcases Nat.eq_zero_or_pos st.cp.length with hz | hpos2
  · exfalso
    have := h.2.2 hz
    rw [this.1, this.2] at hlen
    simp at hlen
    exact absurd (lt_of_lt_of_le hpos hlen) (lt_irrefl 0)
  · exact hpos2

/-- One loop iteration preserves the segmenter invariant. -/
theorem segStep_inv (minD maxD : ℚ) (st : SegState) (p : Peak)
    (h : SegInv minD maxD st) : SegInv minD maxD (segStep minD maxD st p) := by
  unfold segStep
  by_cases hc : p.2 - st.cs > maxD
  · rw [if_pos hc]
    by_cases hg : st.ce - st.cs ≥ minD
    · rw [if_pos hg]
      refine ⟨fun c hcmem => ?_, by simp, by simp⟩
      rcases List.mem_append.1 hcmem with hold | hnew
      · exact h.1 c hold
      · rw [List.mem_singleton.1 hnew]
        exact goodCut_close minD maxD st h hg
    · rw [if_neg hg]
      exact ⟨h.1, by simp, by simp⟩
  · rw [if_neg hc]
    refine ⟨h.1, fun _ => ?_, by simp⟩
    simpa using le_of_not_lt hc

/-- The invariant holds after folding the loop body over any peak list. -/
theorem segFold_inv (minD maxD : ℚ) (peaks : List Peak) (st : SegState)
    (h : SegInv minD maxD st) :
    SegInv minD maxD (peaks.foldl (segStep minD maxD) st) := by
  induction peaks generalizing st with
  | nil => exact h
  | cons p rest ih => exact ih _ (segStep_inv minD maxD st p h)

/-- Every clip produced by the cut-determination part of
split_video_into_clips is at least min_duration long, is at most
max_duration long when its rating is at least 2, and has rating at least
1 whenever min_duration is positive. -/
theorem segment_good (peaks : List Peak) (minD maxD : ℚ) (c : Clip)
    (hc : c ∈ segment peaks minD maxD) :
    minD ≤ c.2.1 - c.1 ∧ (2 ≤ c.2.2 → c.2.1 - c.1 ≤ maxD) ∧
      (0 < minD → 1 ≤ c.2.2) := by
  have hinv : SegInv minD maxD (peaks.foldl (segStep minD maxD) ⟨[], 0, 0, []⟩) :=
    segFold_inv minD maxD peaks _ (segInv_init minD maxD)
  unfold segment at hc
  set st := peaks.foldl (segStep minD maxD) ⟨[], 0, 0, []⟩ with hst
  rcases List.mem_map.1 hc with ⟨c0, hc0mem, hc0eq⟩
  have hgood : GoodCut minD maxD c0 := by
    by_cases hg : st.ce - st.cs ≥ minD
    · rw [if_pos hg] at hc0mem
      rcases List.mem_append.1 hc0mem with hold | hnew
      · exact hinv.1 c0 hold
      · rw [List.mem_singleton.1 hnew]
        exact goodCut_close minD maxD st hinv hg
    · rw [if_neg hg] at hc0mem
      exact hinv.1 c0 hc0mem
  subst hc0eq
  exact ⟨hgood.1, hgood.2.1, hgood.2.2⟩

theorem mem_insertByRating (x z : Clip) (l : List Clip)
    (h : z ∈ insertByRating x l) : z = x ∨ z ∈ l := by
  induction l with
  | nil => simpa [insertByRating] using h
  | cons y ys ih =>
    unfold insertByRating at h
    by_cases hc : x.2.2 < y.2.2
    · rw [if_pos hc] at h
      rcases List.mem_cons.1 h with hz | hz
      · right; exact List.mem_cons.2 (Or.inl hz)
      · rcases ih hz with hz2 | hz2
        · left; exact hz2
        · right; exact List.mem_cons.2 (Or.inr hz2)
    · rw [if_neg hc] at h
      rcases List.mem_cons.1 h with hz | hz
      · left; exact hz
      · right; exact hz

theorem insertByRating_sorted (x : Clip) (l : List Clip)
    (h : List.Sorted (fun a b : Clip => b.2.2 ≤ a.2.2) l) :
    List.Sorted (fun a b : Clip => b.2.2 ≤ a.2.2) (insertByRating x l) := by
  induction l with
  | nil => simp [insertByRating]
  | cons y ys ih =>
    rw [List.sorted_cons] at h
    unfold insertByRating
    by_cases hc : x.2.2 < y.2.2
    · rw [if_pos hc]
      rw [List.sorted_cons]
      refine ⟨fun z hz => ?_, ih h.2⟩
      rcases mem_insertByRating x z ys hz with hz2 | hz2
      · rw [hz2]; exact le_of_lt hc
      · exact h.1 z hz2
    · rw [if_neg hc]
      rw [List.sorted_cons]
      refine ⟨fun z hz => ?_, List.sorted_cons.2 h⟩
      rcases List.mem_cons.1 hz with hz2 | hz2
      · rw [hz2]; exact le_of_not_lt hc
      · exact le_trans (h.1 z hz2) (le_of_not_lt hc)

theorem sortByRatingDesc_sorted (l : List Clip) :
    List.Sorted (fun a b : Clip => b.2.2 ≤ a.2.2) (sortByRatingDesc l) := by
  induction l with
  | nil => simp [sortByRatingDesc]
  | cons x xs ih => exact insertByRating_sorted x _ ih

theorem filter_insertByRating_eq (x : Clip) (l : List Clip) (r : ℕ)
    (hx : x.2.2 = r) :
    (insertByRating x l).filter (fun c => c.2.2 == r) =
      x :: l.filter (fun c => c.2.2 == r) := by
  induction l with
  | nil => simp [insertByRating, hx]
  | cons y ys ih =>
    unfold insertByRating
    by_cases hc : x.2.2 < y.2.2
    · rw [if_pos hc]
      have hy : (y.2.2 == r) = false := by
        simp only [beq_eq_false_iff_ne]
        rw [hx] at hc
        omega
      rw [List.filter_cons, hy]
      simp only [ite_false, Bool.false_eq_true]
      rw [ih, List.filter_cons, hy]
      simp
    · rw [if_neg hc]
      rw [List.filter_cons]
      have hxr : (x.2.2 == r) = true := by simp [hx]
      rw [hxr]
      simp

theorem filter_insertByRating_ne (x : Clip) (l : List Clip) (r : ℕ)
    (hx : (x.2.2 == r) = false) :
    (insertByRating x l).filter (fun c => c.2.2 == r) =
      l.filter (fun c => c.2.2 == r) := by
  induction l with
  | nil => simp [insertByRating, hx]
  | cons y ys ih =>
    unfold insertByRating
    by_cases hc : x.2.2 < y.2.2
    · rw [if_pos hc]
      rw [List.filter_cons, List.filter_cons]
      cases hyr : (y.2.2 == r) <;> simp [hyr, ih]
    · rw [if_neg hc]
      rw [List.filter_cons, hx]
      simp

theorem sortByRatingDesc_stable (l : List Clip) (r : ℕ) :
    (sortByRatingDesc l).filter (fun c => c.2.2 == r) =
      l.filter (fun c => c.2.2 == r) := by
  induction l with
  | nil => simp [sortByRatingDesc]
  | cons x xs ih =>
    show (insertByRating x (sortByRatingDesc xs)).filter (fun c => c.2.2 == r) = _
    cases hxr : (x.2.2 == r) with
    | true =>
      rw [filter_insertByRating_eq x _ r (by simpa using hxr)]
      rw [ih, List.filter_cons, hxr]
      simp
    | false =>
      rw [filter_insertByRating_ne x _ r hxr]
      rw [ih, List.filter_cons, hxr]
      simp

theorem modifyLoop_skip (dur s e : ℚ) (clips : List Clip) (c : ModCmd)
    (l : List ModCmd) (hc : skipsTurn c = true) :
    modifyLoop dur s e clips (c :: l) = modifyLoop dur s e clips l := by
  cases c <;> simp [skipsTurn] at hc <;> rfl

theorem modifyLoop_skip_all (dur s e : ℚ) (clips : List Clip)
    (pre : List ModCmd) (hpre : ∀ c ∈ pre, skipsTurn c = true) :
    ∀ rest, modifyLoop dur s e clips (pre ++ rest) = modifyLoop dur s e clips rest := by
  induction pre with
  | nil => intro rest; rfl
  | cons c pre2 ih =>
    intro rest
    rw [List.cons_append, modifyLoop_skip dur s e clips c _ (hpre c (List.mem_cons_self c pre2))]
    exact ih (fun c2 hc2 => hpre c2 (List.mem_cons_of_mem c hc2)) rest

theorem modifyLoop_range (dur s e : ℚ) (clips : List Clip) (cmd : ModCmd)
    (ns ne : ℚ) (rest : List ModCmd) (hnr : newRange dur s e cmd = some (ns, ne)) :
    modifyLoop dur s e clips (cmd :: rest) = ([[(ns, ne)]], clips ++ [(ns, ne, 0)]) := by
  cases cmd <;> simp only [newRange] at hnr <;>
    first
      | exact Option.noConfusion hnr
      | (injection hnr with h; injection h with h1 h2; subst h1; subst h2; rfl)

theorem modifyLoop_grows (dur s e : ℚ) (clips : List Clip) :
    ∀ script, ∃ tail, (modifyLoop dur s e clips script).2 = clips ++ tail ∧
      ∀ c ∈ tail, c.2.2 = 0 := by
  intro script
  induction script with
  | nil => exact ⟨[], by simp [modifyLoop]⟩
  | cons c rest ih =>
    cases c with
    | back => exact ⟨[], by simp [modifyLoop]⟩
    | trimMiddle ms me =>
      refine ⟨[(s, s + ms, 0), (s + me, e, 0)], by simp [modifyLoop], ?_⟩
      intro c hc
      rcases List.mem_cons.1 hc with h | h
      · rw [h]
      · rw [List.mem_singleton.1 h]
    | addFront t =>
      exact ⟨[(max (s - t) 0, e, 0)], by simp [modifyLoop, newRange], by simp⟩
    | addBack t =>
      exact ⟨[(s, min (e + t) dur, 0)], by simp [modifyLoop, newRange], by simp⟩
    | addBoth f b =>
      exact ⟨[(max (s - f) 0, min (e + b) dur, 0)], by simp [modifyLoop, newRange], by simp⟩
    | trimFront t =>
      exact ⟨[(s + t, e, 0)], by simp [modifyLoop, newRange], by simp⟩
    | trimBack t =>
      exact ⟨[(s, e - t, 0)], by simp [modifyLoop, newRange], by simp⟩
    | trimBoth f b =>
      exact ⟨[(s + f, e - b, 0)], by simp [modifyLoop, newRange], by simp⟩
    | addCancel => simpa [modifyLoop, newRange] using ih
    | addInvalid => simpa [modifyLoop, newRange] using ih
    | trimCancel => simpa [modifyLoop, newRange] using ih
    | trimInvalid => simpa [modifyLoop, newRange] using ih
    | invalid => simpa [modifyLoop, newRange] using ih

theorem get_unique_filename_found (taken : String → Bool) (f b x : String) :
    ∀ fuel k0 p, get_unique_filename taken f b x fuel k0 = some p →
      ∃ k, k0 ≤ k ∧ p = fileName f b x k ∧ taken (fileName f b x k) = false ∧
        ∀ j, k0 ≤ j → j < k → taken (fileName f b x j) = true := by
  intro fuel
  induction fuel with
  | zero => intro k0 p h; exact Option.noConfusion h
  | succ n ih =>
    intro k0 p h
    unfold get_unique_filename at h
    by_cases ht : taken (fileName f b x k0) = true
    · rw [if_pos ht] at h
      rcases ih (k0 + 1) p h with ⟨k, hk1, hk2, hk3, hk4⟩
      refine ⟨k, by omega, hk2, hk3, fun j hj1 hj2 => ?_⟩
      rcases Nat.eq_or_lt_of_le hj1 with hj | hj
      · rw [← hj]; exact ht
      · exact hk4 j hj hj2
    · have ht2 : taken (fileName f b x k0) = false := by simpa using ht
      rw [if_neg ht] at h
      injection h with h2
      refine ⟨k0, le_refl k0, h2.symm, ht2, fun j hj1 hj2 => ?_⟩
      exact absurd (lt_of_le_of_lt hj1 hj2) (lt_irrefl k0)

theorem modifyTraceLoop_no_close (script : List ModCmd) :
    (modifyTraceLoop script).contains Ev.closeVideo = false := by
  induction script with
  | nil => rfl
  | cons c rest ih =>
    cases c <;> simp [modifyTraceLoop, hasRange] <;> first | exact ih | rfl

theorem modifyTrace_no_close (script : List ModCmd) :
    (modifyTrace script).contains Ev.closeVideo = false := by
  show ((Ev.openVideo :: modifyTraceLoop script).contains Ev.closeVideo) = false
  rw [List.contains_cons]
  simp only [modifyTraceLoop_no_close script]
  rfl

/-- Claim C1, counterexample: the single peak interval (0, 100) with
min_duration 5 and max_duration 90 is emitted by the segmenter as the
clip (0, 100, 1), whose length 100 - 0 strictly exceeds max_duration, so
the claimed invariant end - start <= max_duration at creation does not
hold as stated. -/
theorem segment_max_duration_counterexample :
    segment [((0:ℚ), 100)] 5 90 = [((0:ℚ), 100, 1)] ∧ (90:ℚ) < 100 - 0 := by
  constructor
  · norm_num [segment, segStep, rate_clip]
  · norm_num

/-- Claim C1, amended: every clip emitted by the segmenter in
split_video_into_clips satisfies min_duration <= end - start at creation
time, and end - start <= max_duration whenever the clip absorbed at least
two peak intervals; a clip seeded by a single oversized peak interval may
exceed max_duration. -/
theorem segment_duration_bounds (peaks : List Peak) (minD maxD : ℚ) (c : Clip)
    (hc : c ∈ segment peaks minD maxD) :
    minD ≤ c.2.1 - c.1 ∧ (2 ≤ c.2.2 → c.2.1 - c.1 ≤ maxD) := by
  have h := segment_good peaks minD maxD c hc
  exact ⟨h.1, h.2.1⟩

/-- Witness for the amended C1 theorem at a concrete input. -/
theorem segment_duration_bounds_witness :
    (((0:ℚ), 20, 2) ∈ segment [((0:ℚ), 10), ((15:ℚ), 20)] 5 100) ∧
      ((5:ℚ) ≤ 20 - 0 ∧ (2 ≤ 2 → (20:ℚ) - 0 ≤ 100)) := by
  have hm : ((0:ℚ), 20, 2) ∈ segment [((0:ℚ), 10), ((15:ℚ), 20)] 5 100 := by
    norm_num [segment, segStep, rate_clip]
  exact ⟨hm, segment_duration_bounds [((0:ℚ), 10), ((15:ℚ), 20)] 5 100 ((0:ℚ), 20, 2) hm⟩

/-- Claim C2: for every sequence of non-overlapping peak intervals ordered
by increasing start time and all parameters, no clip emitted by the
segmenter loop of split_video_into_clips is strictly shorter than
min_duration (the emission guards compare end - start against
min_duration on both append sites). -/
theorem segment_no_short_clip (peaks : List Peak)
    (hord : List.Pairwise (fun p q : Peak => p.2 ≤ q.1) peaks)
    (minD maxD : ℚ) (c : Clip) (hc : c ∈ segment peaks minD maxD) :
    minD ≤ c.2.1 - c.1 :=
  (segment_good peaks minD maxD c hc).1

/-- Witness for the C2 theorem at a concrete input. -/
theorem segment_no_short_clip_witness :
    (List.Pairwise (fun p q : Peak => p.2 ≤ q.1) [((0:ℚ), 10), ((15:ℚ), 20)] ∧
      ((0:ℚ), 20, 2) ∈ segment [((0:ℚ), 10), ((15:ℚ), 20)] 5 100) ∧
      (5:ℚ) ≤ 20 - 0 := by
  have hord : List.Pairwise (fun p q : Peak => p.2 ≤ q.1) [((0:ℚ), 10), ((15:ℚ), 20)] := by
    norm_num [List.pairwise_cons]
  have hm : ((0:ℚ), 20, 2) ∈ segment [((0:ℚ), 10), ((15:ℚ), 20)] 5 100 := by
    norm_num [segment, segStep, rate_clip]
  exact ⟨⟨hord, hm⟩, segment_no_short_clip _ hord 5 100 _ hm⟩

/-- Claim C3: on peaks [(0,10), (15,95)] with max_duration 90 and any
min_duration at most 10, the segmenter closes the first running segment
as the clip (0, 10) with rating 1 (95 - 0 = 95 > 90), seeds a new
segment with (15, 95) alone, and emits it with rating 1 at end of
input. -/
theorem segment_maxcap_split (minD : ℚ) (h : minD ≤ 10) :
    segment [((0:ℚ), 10), ((15:ℚ), 95)] minD 90 =
      [((0:ℚ), 10, 1), ((15:ℚ), 95, 1)] := by
  have h80 : minD ≤ 80 := le_trans h (by norm_num)
  have e1 : segStep minD 90 ⟨[], 0, 0, []⟩ ((0:ℚ), 10) = ⟨[], 0, 10, [((0:ℚ), 10)]⟩ := by
    norm_num [segStep]
  have e2 : segStep minD 90 ⟨[], 0, 10, [((0:ℚ), 10)]⟩ ((15:ℚ), 95) =
      ⟨[((0:ℚ), 10, [((0:ℚ), 10)])], 15, 95, [((15:ℚ), 95)]⟩ := by
    norm_num [segStep, h]
  simp only [segment, List.foldl_cons, List.foldl_nil]
  rw [e1, e2]
  norm_num [rate_clip, h80]

/-- Witness for the C3 theorem at min_duration 5. -/
theorem segment_maxcap_split_witness :
    ((5:ℚ) ≤ 10) ∧
      segment [((0:ℚ), 10), ((15:ℚ), 95)] 5 90 = [((0:ℚ), 10, 1), ((15:ℚ), 95, 1)] :=
  ⟨by norm_num, segment_maxcap_split 5 (by norm_num)⟩

/-- Claim C4: the selector sorts the candidates by rating in descending
order (the output is sorted under the relation rating of the right
element <= rating of the left one), the sort is stable (for every rating
value, filtering the output by that rating returns the clips with that
rating in their original order), and it keeps the first num_clips; on the
candidates [(0,10,2), (10,20,5), (20,30,5)] with num_clips 2 the result
is [(10,20,5), (20,30,5)]. -/
theorem selector_stable_sort_desc :
    (∀ l : List Clip, List.Sorted (fun a b : Clip => b.2.2 ≤ a.2.2) (sortByRatingDesc l)) ∧
      (∀ (l : List Clip) (r : ℕ),
        (sortByRatingDesc l).filter (fun c => c.2.2 == r) =
          l.filter (fun c => c.2.2 == r)) ∧
      selectTop [((0:ℚ), (10:ℚ), 2), ((10:ℚ), (20:ℚ), 5), ((20:ℚ), (30:ℚ), 5)] 2 =
        [((10:ℚ), (20:ℚ), 5), ((20:ℚ), (30:ℚ), 5)] := by
  refine ⟨sortByRatingDesc_sorted, sortByRatingDesc_stable, ?_⟩
  norm_num [selectTop, sortByRatingDesc, insertByRating]

/-- Claim C5: for every selected clip (s, e) and Trim-Middle offsets
ms and me relative to the clip start, the loop of modify_clip exports the
concatenation of the sub-ranges (s, s + ms) and (s + me, e) as one file,
appends exactly (s, s + ms, 0) and (s + me, e, 0) to the clip list and
returns; concretely, the clip (100, 160, 3) with ms = 20 and me = 40
exports the concatenation of (100, 120) and (140, 160) and appends
(100, 120, 0) and (140, 160, 0). -/
theorem trim_middle_exports_halves :
    (∀ (dur s e ms me : ℚ) (clips : List Clip) (rest : List ModCmd),
      modifyLoop dur s e clips (ModCmd.trimMiddle ms me :: rest) =
        ([[(s, s + ms), (s + me, e)]], clips ++ [(s, s + ms, 0), (s + me, e, 0)])) ∧
      modifyLoop 1000 100 160 [((100:ℚ), 160, 3)] [ModCmd.trimMiddle 20 40] =
        ([[((100:ℚ), 120), ((140:ℚ), 160)]],
          [((100:ℚ), 160, 3), ((100:ℚ), 120, 0), ((140:ℚ), 160, 0)]) := by
  refine ⟨fun dur s e ms me clips rest => rfl, ?_⟩
  norm_num [modifyLoop]

/-- Claim C6: for every selected clip (s, e) and Add Front/Back/Both
command, the new clip produced by the loop of modify_clip has
new_start = max(s - front, 0) and new_end = min(e + back, dur) with the
unmodified endpoint kept as-is, and it is appended to the clip list with
rating 0. -/
theorem add_time_clamped (dur s e t f b : ℚ) (clips : List Clip) (rest : List ModCmd) :
    modifyLoop dur s e clips (ModCmd.addFront t :: rest) =
        ([[(max (s - t) 0, e)]], clips ++ [(max (s - t) 0, e, 0)]) ∧
      modifyLoop dur s e clips (ModCmd.addBack t :: rest) =
        ([[(s, min (e + t) dur)]], clips ++ [(s, min (e + t) dur, 0)]) ∧
      modifyLoop dur s e clips (ModCmd.addBoth f b :: rest) =
        ([[(max (s - f) 0, min (e + b) dur)]],
          clips ++ [(max (s - f) 0, min (e + b) dur, 0)]) :=
  ⟨rfl, rfl, rfl⟩

/-- Claim C7: after any run of commands that only re-prompt, a successful
Add or Trim other than Trim-Middle exports exactly one file and appends
exactly one entry, Trim-Middle exports exactly one file and appends
exactly two entries, and on every command stream the clip list of the
result extends the original list at the end, the appended entries all
having rating 0. -/
theorem modify_frame_effect (dur s e : ℚ) (clips : List Clip) (pre : List ModCmd)
    (hpre : ∀ c ∈ pre, skipsTurn c = true) :
    (∀ rest, modifyLoop dur s e clips (pre ++ rest) = modifyLoop dur s e clips rest) ∧
      (∀ (cmd : ModCmd) (ns ne : ℚ) (rest : List ModCmd),
        newRange dur s e cmd = some (ns, ne) →
          modifyLoop dur s e clips (cmd :: rest) = ([[(ns, ne)]], clips ++ [(ns, ne, 0)])) ∧
      (∀ (ms me : ℚ) (rest : List ModCmd),
        modifyLoop dur s e clips (ModCmd.trimMiddle ms me :: rest) =
          ([[(s, s + ms), (s + me, e)]], clips ++ [(s, s + ms, 0), (s + me, e, 0)])) ∧
      (∀ script, ∃ tail, (modifyLoop dur s e clips script).2 = clips ++ tail ∧
        ∀ c ∈ tail, c.2.2 = 0) :=
  ⟨modifyLoop_skip_all dur s e clips pre hpre,
    fun cmd ns ne rest hnr => modifyLoop_range dur s e clips cmd ns ne rest hnr,
    fun ms me rest => rfl,
    modifyLoop_grows dur s e clips⟩

/-- Witness for the C7 theorem at a concrete skip-only run. -/
theorem modify_frame_effect_witness :
    (∀ c ∈ [ModCmd.invalid, ModCmd.addCancel], skipsTurn c = true) ∧
      ((∀ rest, modifyLoop 1000 0 10 [] ([ModCmd.invalid, ModCmd.addCancel] ++ rest) =
          modifyLoop 1000 0 10 [] rest) ∧
        (∀ (cmd : ModCmd) (ns ne : ℚ) (rest : List ModCmd),
          newRange 1000 0 10 cmd = some (ns, ne) →
            modifyLoop 1000 0 10 [] (cmd :: rest) = ([[(ns, ne)]], [] ++ [(ns, ne, 0)])) ∧
        (∀ (ms me : ℚ) (rest : List ModCmd),
          modifyLoop 1000 0 10 [] (ModCmd.trimMiddle ms me :: rest) =
            ([[(0, 0 + ms), (0 + me, 10)]], [] ++ [(0, 0 + ms, 0), (0 + me, 10, 0)])) ∧
        (∀ script, ∃ tail, (modifyLoop 1000 0 10 [] script).2 = [] ++ tail ∧
          ∀ c ∈ tail, c.2.2 = 0)) := by
  have hpre : ∀ c ∈ [ModCmd.invalid, ModCmd.addCancel], skipsTurn c = true := by
    intro c hc
    rcases List.mem_cons.1 hc with h | h
    · rw [h]; rfl
    · rw [List.mem_singleton.1 h]; rfl
  exact ⟨hpre, modify_frame_effect 1000 0 10 [] [ModCmd.invalid, ModCmd.addCancel] hpre⟩

/-- Claim C8: whenever the loop of get_unique_filename terminates with a
name (some p), that name is output_folder/base_name_k.extension for a
counter k at least 1 that does not exist on disk, and every smaller
counter from 1 upward does exist, i.e. k is the smallest free index. -/
theorem get_unique_filename_least (taken : String → Bool)
    (folder base ext : String) (fuel : ℕ) (p : String)
    (h : get_unique_filename taken folder base ext fuel 1 = some p) :
    ∃ k, 1 ≤ k ∧ p = fileName folder base ext k ∧
      taken (fileName folder base ext k) = false ∧
      ∀ j, 1 ≤ j → j < k → taken (fileName folder base ext j) = true :=
  get_unique_filename_found taken folder base ext fuel 1 p h

/-- Witness for the C8 theorem: with clip_1_modified_1.mp4 already on
disk, the returned name is clip_1_modified_2.mp4. -/
theorem get_unique_filename_least_witness :
    get_unique_filename (fun nm => nm == "out/clip_1_modified_1.mp4")
        "out" "clip_1_modified" "mp4" 5 1 = some "out/clip_1_modified_2.mp4" ∧
      ∃ k, 1 ≤ k ∧
        "out/clip_1_modified_2.mp4" = fileName "out" "clip_1_modified" "mp4" k ∧
        (fun nm => nm == "out/clip_1_modified_1.mp4")
            (fileName "out" "clip_1_modified" "mp4" k) = false ∧
        ∀ j, 1 ≤ j → j < k →
          (fun nm => nm == "out/clip_1_modified_1.mp4")
              (fileName "out" "clip_1_modified" "mp4" j) = true := by
  have h : get_unique_filename (fun nm => nm == "out/clip_1_modified_1.mp4")
      "out" "clip_1_modified" "mp4" 5 1 = some "out/clip_1_modified_2.mp4" := by decide
  exact ⟨h, get_unique_filename_least _ "out" "clip_1_modified" "mp4" 5 _ h⟩

/-- Claim C9 is violated by the code: modify_clip opens a video handle
and no path of it (Back, Trim-Middle return, successful Add/Trim) ever
closes the handle, and in split_video_into_clips a failing export skips
the close as well (close only runs after every export succeeded). -/
theorem video_handle_not_closed :
    (∀ script : List ModCmd, (modifyTrace script).contains Ev.closeVideo = false) ∧
      (splitTrace [false]).contains Ev.closeVideo = false ∧
      (splitTrace [true]).contains Ev.closeVideo = true :=
  ⟨modifyTrace_no_close, by decide, by decide⟩

/-- Claim C10: when min_duration is positive, every clip emitted by the
segmenter loop of split_video_into_clips has rating at least 1 (the
initial empty running segment is never emitted), while every entry the
modify_clip loop adds to the clip list has rating 0, so rating 0
identifies manually produced clips. -/
theorem segment_rating_positive (peaks : List Peak) (minD maxD : ℚ)
    (h : 0 < minD) (c : Clip) (hc : c ∈ segment peaks minD maxD) :
    1 ≤ c.2.2 ∧
      ∀ (dur s e : ℚ) (clips : List Clip) (script : List ModCmd) (c2 : Clip),
        c2 ∈ (modifyLoop dur s e clips script).2 → c2 ∈ clips ∨ c2.2.2 = 0 := by
  refine ⟨(segment_good peaks minD maxD c hc).2.2 h, ?_⟩
  intro dur s e clips script c2 hc2
  rcases modifyLoop_grows dur s e clips script with ⟨tail, heq, hall⟩
  rw [heq] at hc2
  rcases List.mem_append.1 hc2 with h2 | h2
  · exact Or.inl h2
  · exact Or.inr (hall c2 h2)

/-- Witness for the C10 theorem at a concrete input. -/
theorem segment_rating_positive_witness :
    ((0:ℚ) < 5 ∧ ((0:ℚ), 30, 1) ∈ segment [((0:ℚ), 30)] 5 100) ∧
      (1 ≤ (((0:ℚ), 30, 1) : Clip).2.2 ∧
        ∀ (dur s e : ℚ) (clips : List Clip) (script : List ModCmd) (c2 : Clip),
          c2 ∈ (modifyLoop dur s e clips script).2 → c2 ∈ clips ∨ c2.2.2 = 0) := by
  have hpos : (0:ℚ) < 5 := by norm_num
  have hm : ((0:ℚ), 30, 1) ∈ segment [((0:ℚ), 30)] 5 100 := by
    norm_num [segment, segStep, rate_clip]
  exact ⟨⟨hpos, hm⟩, segment_rating_positive [((0:ℚ), 30)] 5 100 hpos _ hm⟩

end VideoSplitPro
